import Mathlib

/-!
Shallow embedding of the Query Orchestration and Retrieval Fusion Engine of
the RAG-based assistant repository: the reciprocal-rank-fusion engine
(modules/rrf_score.py), the multi-query expander
(modules/multi_query_retriever.py), the multi-hop orchestrator
(modules/multi_hop_retriever.py), the windowed summarizing conversation
memory (modules/conversation_history.py), the complexity router
(modules/decide_query_complexity.py) and the per-turn tier dispatch of
app.py.  Python dicts are modelled as insertion-ordered association lists,
floats as exact rationals, and the generative oracle and the two retrievers
as explicit function parameters.
-/

namespace RAG

/-- The `langchain.schema.Document` record: text content plus metadata.  Metadata is an
insertion-ordered string map (`tuple(doc.metadata.items())` in the source). -/
structure Document where
  page_content : String
  metadata : List (String × String)
deriving DecidableEq, Repr

/-- The hashable identity key built in `RRF.rearrange`:
`(doc.page_content, tuple(doc.metadata.items()))`. -/
abbrev Key : Type := String × List (String × String)

/-- The identity key `(doc.page_content, tuple(doc.metadata.items()))`. -/
def Document.key (d : Document) : Key := (d.page_content, d.metadata)

/-! ### Insertion-ordered dictionaries

Python dicts preserve insertion order; assigning to an existing key updates
the value in place, assigning to a fresh key appends at the end. -/

/-- Assignment `m[k] = v` on an insertion-ordered dict. -/
def updD {β : Type} (m : List (Key × β)) (k : Key) (v : β) : List (Key × β) :=
  match m with
  | [] => [(k, v)]
  | (k', v') :: rest => if k' = k then (k, v) :: rest else (k', v') :: updD rest k v

/-- Lookup `m.get(k, d)` on an insertion-ordered dict. -/
def getD {β : Type} (m : List (Key × β)) (k : Key) (d : β) : β :=
  match m with
  | [] => d
  | (k', v') :: rest => if k' = k then v' else getD rest k d

/-- Key membership in an insertion-ordered dict. -/
def memD {β : Type} (m : List (Key × β)) (k : Key) : Bool :=
  match m with
  | [] => false
  | (k', _) :: rest => k' = k || memD rest k

/-! ### RRF: reciprocal rank fusion (modules/rrf_score.py) -/

/-- One step of the scan of `RRF.rearrange` over a single ranked list:
`for rank, doc in enumerate(docs, start=rank0)` updating `doc_map[key] = doc`
and `rrf_scores[key] = rrf_scores.get(key, 0) + 1/(60+rank)`. -/
def scanOne : List Document → ℕ → List (Key × ℚ) × List (Key × Document) →
    List (Key × ℚ) × List (Key × Document)
  | [], _, st => st
  | d :: ds, rank, (scores, dmap) =>
      scanOne ds (rank + 1)
        (updD scores d.key (getD scores d.key 0 + 1 / (60 + (rank : ℚ))),
         updD dmap d.key d)

/-- The outer scan of `RRF.rearrange`: `for docs in self.documents`, each
inner enumeration starting at rank 1. -/
def scanAll : List (List Document) → List (Key × ℚ) × List (Key × Document) →
    List (Key × ℚ) × List (Key × Document)
  | [], st => st
  | l :: ls, st => scanAll ls (scanOne l 1 st)

/-- Stable insertion (by descending score) of one scored key: the element is
placed after every earlier element of greater-or-equal score, mirroring the
stability of `sorted(..., reverse=True)` in Python. -/
def insertScored (x : Key × ℚ) : List (Key × ℚ) → List (Key × ℚ)
  | [] => [x]
  | y :: ys => if x.2 ≥ y.2 then x :: y :: ys else y :: insertScored x ys

/-- Stable sort by descending score:
`sorted(self.rrf_scores.items(), key=lambda x: x[1], reverse=True)`. -/
def sortScoredDesc : List (Key × ℚ) → List (Key × ℚ)
  | [] => []
  | x :: xs => insertScored x (sortScoredDesc xs)

/-- The `doc_map[key]` lookup used to rebuild `best_docs` (the key is always
present; the default document is never reached). -/
def lookupDoc (dmap : List (Key × Document)) (k : Key) : Document :=
  getD dmap k ⟨"", []⟩

/-- The result of `RRF.rearrange` run on a fresh accumulator (`self.rrf_scores = dict()`):
scan all lists, sort by descending score, rebuild documents, then
`best_docs[:top_k] if top_k else best_docs`. -/
def rearrangePure (documents : List (List Document)) (top_k : ℕ) : List Document :=
  let st := scanAll documents ([], [])
  let sorted := sortScoredDesc st.1
  let best_docs := sorted.map (fun p => lookupDoc st.2 p.1)
  if top_k = 0 then best_docs else best_docs.take top_k

/-- The `rrf_scores` attribute: a dict before `rearrange` runs, replaced by a
sorted list of pairs (`self.rrf_scores = sorted(...)`) when it returns. -/
inductive ScoresField : Type
  | dict (m : List (Key × ℚ))
  | list (l : List (Key × ℚ))
deriving DecidableEq

/-- The `RRF` instance state: constructor arguments plus `rrf_scores`. -/
structure RRF where
  documents : List (List Document)
  rrf_scores : ScoresField
deriving DecidableEq

/-- Constructor of `RRF`: stores the lists and sets `self.rrf_scores = dict()`. -/
def RRF.init (documents : List (List Document)) : RRF :=
  ⟨documents, .dict []⟩

/-- Stateful `RRF.rearrange`.  When `rrf_scores` is still a dict the scan
accumulates into it and the attribute is replaced by the sorted pair list;
when a previous call already replaced it by a list, the attribute accesses
`self.rrf_scores.get` / `self.rrf_scores.items()` raise `AttributeError`. -/
def RRF.rearrange (s : RRF) (top_k : ℕ) : Except String (List Document × RRF) :=
  match s.rrf_scores with
  | .list _ => .error "AttributeError: list object has no attribute get or items"
  | .dict m =>
      let st := scanAll s.documents (m, [])
      let sorted := sortScoredDesc st.1
      let best_docs := sorted.map (fun p => lookupDoc st.2 p.1)
      .ok (if top_k = 0 then best_docs else best_docs.take top_k,
           { s with rrf_scores := .list sorted })

/-! ### MultiQueryRetriever (modules/multi_query_retriever.py) -/

/-- The parsed oracle response seen by `__translate_queries`: the JSON output
chain either yields a dict (whose `generatedQueries` key may be absent) or a
non-dict value. -/
inductive MQResp : Type
  | dict (generatedQueries : Option (List String))
  | nonDict
deriving DecidableEq

/-- The expression `resp.get("generatedQueries", [""]) if isinstance(resp, dict) else [""]`. -/
def parseGenerated (resp : MQResp) : List String :=
  match resp with
  | .dict (some qs) => qs
  | .dict none => [""]
  | .nonDict => [""]

/-- The `MultiQueryRetriever` instance: the model chain is abstracted away
(its parsed responses are supplied at call sites), the two retrievers are
result-bounded functions fixed at construction, and `sub_queries` /
`all_documents` are the per-instance accumulators initialised to `[]`. -/
structure MultiQueryRetriever where
  bm25_retriever : String → List Document
  semantic_retriever : String → List Document
  top_k : ℕ := 3
  sub_queries : List String := []
  all_documents : List (List Document) := []

/-- Method `__translate_queries`: extend `sub_queries` with the parsed paraphrases. -/
def MultiQueryRetriever.translate_queries (s : MultiQueryRetriever) (resp : MQResp) :
    MultiQueryRetriever :=
  { s with sub_queries := s.sub_queries ++ parseGenerated resp }

/-- Method `__retrieve`: for every query accumulated in `sub_queries`, concatenate
the lexical and the dense results into one list
(`self.bm25_retriever.invoke(query) + self.semantic_retriever.invoke(query)`)
and append it to `all_documents`. -/
def MultiQueryRetriever.retrieve (s : MultiQueryRetriever) : MultiQueryRetriever :=
  { s with all_documents :=
      s.all_documents ++
        s.sub_queries.map (fun q => s.bm25_retriever q ++ s.semantic_retriever q) }

/-- Method `MultiQueryRetriever.invoke`: translate, retrieve, then fuse
`all_documents` with `RRF(...).rearrange(top_k=self.top_k)` on a fresh
accumulator.  Returns the fused documents and the mutated instance. -/
def MultiQueryRetriever.invoke (s : MultiQueryRetriever) (resp : MQResp) :
    List Document × MultiQueryRetriever :=
  let s1 := s.translate_queries resp
  let s2 := s1.retrieve
  (rearrangePure s2.all_documents s2.top_k, s2)

/-! ### MultiHopRetriever (modules/multi_hop_retriever.py) -/

/-- The parsed structured decision of one hop (`SubQuery` schema). -/
structure HopResp where
  end_of_generation : Bool
  subquery : String
deriving DecidableEq

/-- The `MultiHopRetriever` instance: retrievers fixed at construction, and
the per-instance accumulators `subqueries` / `retrieved_respective_documents`
initialised to `[]`. -/
structure MultiHopRetriever where
  bm25_retriever : String → List Document
  semantic_retriever : String → List Document
  subqueries : List String := []
  retrieved_respective_documents : List (List Document) := []

/-- The dict comprehension in `generate_subquery_content`: zip the subqueries
with their document lists and deduplicate by subquery text, a later identical
subquery keeping the first position but overwriting the document set. -/
def dedupBySubquery (ps : List (String × List Document)) :
    List (String × List Document) :=
  ps.foldl (fun acc p => updS acc p.1 p.2) []
where
  /-- In-place update or append, mirroring Python dict assignment. -/
  updS (m : List (String × List Document)) (k : String) (v : List Document) :
      List (String × List Document) :=
    match m with
    | [] => [(k, v)]
    | (k', v') :: rest => if k' = k then (k, v) :: rest else (k', v') :: updS rest k v

/-- The rendered body line for one subquery record, 1-based index `idx`. -/
def renderRecord (idx : ℕ) (p : String × List Document) : String :=
  toString idx ++ ". Subquery: " ++ p.1 ++ "\n-> Relevant Documents:\n" ++
    String.intercalate "\n" (p.2.map Document.page_content) ++ "\n"

/-- Method `generate_subquery_content`: header plus every deduplicated record,
enumerated from 1. -/
def MultiHopRetriever.generate_subquery_content (s : MultiHopRetriever) : String :=
  let pairs := dedupBySubquery (s.subqueries.zip s.retrieved_respective_documents)
  "### Subqueries + Retrieved Documents\n" ++
    String.join ((List.range pairs.length).zip pairs |>.map
      (fun ip => renderRecord (ip.1 + 1) ip.2))

/-- The `for i in range(max_iteration_allowed)` loop of
`MultiHopRetriever.invoke`: each iteration queries the oracle (modelled as a
function of the iteration index); on `end_of_generation = False` the subquery
is appended, both retrievers are invoked on it, the two ranked lists are
fused with `RRF([...]).rearrange(top_k=7)` and the result appended; on
`end_of_generation = True` the loop breaks. -/
def MultiHopRetriever.run (s : MultiHopRetriever) (oracle : ℕ → HopResp) :
    ℕ → ℕ → MultiHopRetriever
  | _, 0 => s
  | i, fuel + 1 =>
      let resp := oracle i
      if resp.end_of_generation then s
      else
        let best := rearrangePure
          [s.bm25_retriever resp.subquery, s.semantic_retriever resp.subquery] 7
        MultiHopRetriever.run
          { s with subqueries := s.subqueries ++ [resp.subquery],
                   retrieved_respective_documents :=
                     s.retrieved_respective_documents ++ [best] }
          oracle (i + 1) fuel

/-- Method `MultiHopRetriever.invoke`: run the bounded loop then return
`generate_subquery_content()` together with the mutated instance. -/
def MultiHopRetriever.invoke (s : MultiHopRetriever) (oracle : ℕ → HopResp)
    (max_iteration_allowed : ℕ := 5) : String × MultiHopRetriever :=
  let s1 := s.run oracle 0 max_iteration_allowed
  (s1.generate_subquery_content, s1)

/-! ### ConversationSummaryMemory (modules/conversation_history.py) -/

/-- One conversation turn: `turn.type` (`"human"` or `"ai"`) and content. -/
structure Turn where
  type : String
  content : String
deriving DecidableEq

/-- The memory state: the summarizer chain is modelled as a function from the
assembled conversation string to the produced summary, with a call counter
recording each oracle invocation; `window = k*2`. -/
structure ConversationSummaryMemory where
  summarizer : String → String
  window : ℕ
  conversations : List Turn := []
  summary_cache : String := ""
  oracle_calls : ℕ := 0

/-- Constructor `ConversationSummaryMemory.__init__(model, k)`. -/
def ConversationSummaryMemory.init (summarizer : String → String) (k : ℕ) :
    ConversationSummaryMemory :=
  { summarizer := summarizer, window := k * 2 }

/-- The `windowed_conversation` property: `self.conversations[-self.window:]`
once the turn count exceeds the window (a slice that yields the whole list
when the window is zero), the whole list otherwise. -/
def windowedOf (conversations : List Turn) (window : ℕ) : List Turn :=
  if conversations.length > window then
    if window = 0 then conversations
    else conversations.drop (conversations.length - window)
  else conversations

def ConversationSummaryMemory.windowed_conversation (m : ConversationSummaryMemory) :
    List Turn :=
  windowedOf m.conversations m.window

/-- Method `__pretty_print`: each turn as a `>`-prefixed line, joined by newlines. -/
def pretty_print (conversations : List Turn) : String :=
  String.intercalate "\n" (conversations.map (fun t => "> " ++ t.type ++ ": " ++ t.content))

/-- The conversation string assembled by `append` for the summarizer chain. -/
def summaryInput (prev : String) (windowed : List Turn) : String :=
  "Previous Conversation Summary: " ++ prev ++ "\nLatest Turns:\n" ++ pretty_print windowed

/-- Method `append`: push the turn, then, when the post-append turn count exceeds
the window, re-derive `_summary_cache` from the prior cached summary plus the
pretty-printed windowed view. -/
def ConversationSummaryMemory.append (m : ConversationSummaryMemory) (turn : Turn) :
    ConversationSummaryMemory :=
  let convs := m.conversations ++ [turn]
  if convs.length > m.window then
    { m with conversations := convs,
             summary_cache := m.summarizer (summaryInput m.summary_cache (windowedOf convs m.window)),
             oracle_calls := m.oracle_calls + 1 }
  else
    { m with conversations := convs }

/-! ### ComplexityRouter (modules/decide_query_complexity.py) and the
per-turn tier dispatch (app.py) -/

/-- The three tier values enumerated by `QueryComplexitySchema.complexity`. -/
def schemaTiers : List String := ["simple_conversation", "complex", "multi_hop"]

/-- Errors that `QueryComplexity.invoke` can surface: the JSON output chain
raising on unparseable output, or the dict subscript raising `KeyError`. -/
inductive RouterError : Type
  | outputParseFailure (msg : String)
  | keyError
deriving DecidableEq

/-- First-match lookup in a parsed JSON object. -/
def jsonLookup (d : List (String × String)) (k : String) : Option String :=
  match d with
  | [] => none
  | (k', v) :: rest => if k' = k then some v else jsonLookup rest k

/-- Method `QueryComplexity.invoke`: the parsed response of the chain is either a parse
failure or a JSON dict; on success the code returns `resp["complexity"]`,
which raises `KeyError` when the key is absent (the JSON output chain does
not apply the declared schema default). -/
def QueryComplexity.invoke (resp : Except String (List (String × String))) :
    Except RouterError String :=
  match resp with
  | .error e => .error (.outputParseFailure e)
  | .ok d =>
      match jsonLookup d "complexity" with
      | some v => .ok v
      | none => .error .keyError

/-- The per-turn retrieval branch selected in app.py. -/
inductive Branch : Type
  | multiquery
  | multihop
  | outOfScope
deriving DecidableEq

/-- The tier dispatch of the conversation loop in app.py:
`if complexity_tier == "complex": ... elif complexity_tier == "multi-hop":
... else: ...`. -/
def dispatchTier (complexity_tier : String) : Branch :=
  if complexity_tier = "complex" then .multiquery
  else if complexity_tier = "multi-hop" then .multihop
  else .outOfScope

/-! ### Helper lemmas: insertion-ordered dictionaries -/

/-- The accumulated score of a key: `rrf_scores.get(key, 0)`. -/
def scoreOf (m : List (Key × ℚ)) (k : Key) : ℚ := getD m k 0

/-- The declarative per-list RRF contribution of a key, ranks counted from
`rank`: each document whose identity key matches contributes the reciprocal
of sixty plus its rank. -/
def listContributionFrom (k : Key) (rank : ℕ) : List Document → ℚ
  | [] => 0
  | d :: ds =>
      (if d.key = k then 1 / (60 + (rank : ℚ)) else 0) + listContributionFrom k (rank + 1) ds

theorem getD_updD_self {β : Type} (m : List (Key × β)) (k : Key) (v : β) (d : β) :
    getD (updD m k v) k d = v := by
  induction m with
  | nil => simp [updD, getD]
  | cons p rest ih =>
      obtain ⟨k', v'⟩ := p
      by_cases h : k' = k
      · simp [updD, getD, h]
      · simp [updD, getD, h, ih]

theorem getD_updD_ne {β : Type} (m : List (Key × β)) (k k' : Key) (v : β) (d : β)
    (h : k' ≠ k) : getD (updD m k' v) k d = getD m k d := by
  induction m with
  | nil => simp [updD, getD, h]
  | cons p rest ih =>
      obtain ⟨k₀, v₀⟩ := p
      by_cases h0 : k₀ = k'
      · have h2 : k₀ ≠ k := by rw [h0]; exact h
        simp [updD, getD, h0, h, h2]
      · by_cases h1 : k₀ = k
        · simp [updD, getD, h0, h1, Ne.symm h]
        · simp [updD, getD, h0, h1, ih]

theorem memD_updD {β : Type} (m : List (Key × β)) (k k' : Key) (v : β) :
    memD (updD m k' v) k = (decide (k' = k) || memD m k) := by
  induction m with
  | nil => simp [updD, memD]
  | cons p rest ih =>
      obtain ⟨k₀, v₀⟩ := p
      by_cases h0 : k₀ = k'
      · subst h0
        by_cases h1 : k₀ = k <;> simp [updD, memD, h1]
      · simp only [updD, if_neg h0, memD, ih]
        cases h2 : decide (k₀ = k) <;> cases h3 : decide (k' = k) <;>
          simp_all [Bool.or_comm, Bool.or_left_comm]

theorem memD_iff {β : Type} (m : List (Key × β)) (k : Key) :
    memD m k = true ↔ k ∈ m.map Prod.fst := by
  induction m with
  | nil => simp [memD]
  | cons p rest ih =>
      obtain ⟨k₀, v₀⟩ := p
      by_cases h : k₀ = k
      · simp [memD, h]
      · simp [memD, h, Ne.symm h, ih]

theorem getD_not_mem {β : Type} (m : List (Key × β)) (k : Key) (d : β)
    (h : memD m k = false) : getD m k d = d := by
  induction m with
  | nil => simp [getD]
  | cons p rest ih =>
      obtain ⟨k₀, v₀⟩ := p
      by_cases h0 : k₀ = k
      · simp [memD, h0] at h
      · simp only [memD, Bool.or_eq_false_iff, decide_eq_false_iff_not] at h
        simp [getD, h0, ih h.2]

theorem updD_not_mem {β : Type} (m : List (Key × β)) (k : Key) (v : β)
    (h : memD m k = false) : updD m k v = m ++ [(k, v)] := by
  induction m with
  | nil => simp [updD]
  | cons p rest ih =>
      obtain ⟨k₀, v₀⟩ := p
      simp only [memD, Bool.or_eq_false_iff, decide_eq_false_iff_not] at h
      simp [updD, h.1, ih h.2]

theorem mem_updD {β : Type} (m : List (Key × β)) (k : Key) (v : β) (p : Key × β)
    (h : p ∈ updD m k v) : p ∈ m ∨ p = (k, v) := by
  induction m with
  | nil => simp [updD] at h; exact Or.inr h
  | cons q rest ih =>
      obtain ⟨k₀, v₀⟩ := q
      by_cases h0 : k₀ = k
      · simp only [updD, if_pos h0, List.mem_cons] at h
        rcases h with h | h
        · exact Or.inr h
        · exact Or.inl (List.mem_cons_of_mem _ h)
      · simp only [updD, if_neg h0, List.mem_cons] at h
        rcases h with h | h
        · exact Or.inl (List.mem_cons.2 (Or.inl h))
        · rcases ih h with h1 | h1
          · exact Or.inl (List.mem_cons_of_mem _ h1)
          · exact Or.inr h1

theorem updD_keys {β : Type} (m : List (Key × β)) (k : Key) (v : β) :
    (updD m k v).map Prod.fst =
      if memD m k then m.map Prod.fst else m.map Prod.fst ++ [k] := by
  induction m with
  | nil => simp [updD, memD]
  | cons p rest ih =>
      obtain ⟨k₀, v₀⟩ := p
      by_cases h0 : k₀ = k
      · subst h0; simp [updD, memD]
      · simp only [updD, if_neg h0, memD]
        by_cases h1 : memD rest k
        · simp [h0, h1, ih]
        · simp [h0, h1, ih]

theorem updD_keys_nodup {β : Type} (m : List (Key × β)) (k : Key) (v : β)
    (h : (m.map Prod.fst).Nodup) : ((updD m k v).map Prod.fst).Nodup := by
  rw [updD_keys]
  by_cases h1 : memD m k
  · simpa [h1] using h
  · have h2 : k ∉ m.map Prod.fst := fun hc => by
      rw [← memD_iff m k] at hc; simp [hc] at h1
    have h3 : memD m k = false := by
      cases hmem : memD m k
      · rfl
      · exact absurd hmem h1
    rw [h3]
    show (m.map Prod.fst ++ [k]).Nodup
    rw [List.nodup_append]
    refine ⟨h, List.nodup_singleton _, ?_⟩
    intro a ha hb
    rw [List.mem_singleton] at hb
    subst hb
    exact h2 ha

theorem getD_mem {β : Type} (m : List (Key × β)) (k : Key) (d : β)
    (h : memD m k = true) : (k, getD m k d) ∈ m := by
  induction m with
  | nil => simp [memD] at h
  | cons p rest ih =>
      obtain ⟨k₀, v₀⟩ := p
      by_cases h0 : k₀ = k
      · subst h0; simp [getD]
      · simp only [memD, Bool.or_eq_true, decide_eq_true_eq] at h
        rcases h with h | h
        · exact absurd h h0
        · simp only [getD, if_neg h0]
          exact List.mem_cons_of_mem _ (ih h)

/-! ### Helper lemmas: the RRF scan -/

theorem scanOne_fst_score (ds : List Document) (k : Key) :
    ∀ (rank : ℕ) (m : List (Key × ℚ)) (dm : List (Key × Document)),
      scoreOf (scanOne ds rank (m, dm)).1 k =
        scoreOf m k + listContributionFrom k rank ds := by
  induction ds with
  | nil => intro rank m dm; simp [scanOne, listContributionFrom]
  | cons d ds ih =>
      intro rank m dm
      simp only [scanOne, listContributionFrom]
      rw [ih]
      by_cases h : d.key = k
      · subst h
        unfold scoreOf
        rw [getD_updD_self]
        simp [scoreOf]
        ring
      · unfold scoreOf
        rw [getD_updD_ne _ _ _ _ _ h]
        simp [scoreOf, h]

theorem scanAll_score (L : List (List Document)) (k : Key) :
    ∀ (m : List (Key × ℚ)) (dm : List (Key × Document)),
      scoreOf (scanAll L (m, dm)).1 k =
        scoreOf m k + (L.map (listContributionFrom k 1)).sum := by
  induction L with
  | nil => intro m dm; simp [scanAll]
  | cons l ls ih =>
      intro m dm
      simp only [scanAll, List.map_cons, List.sum_cons]
      rw [show scanOne l 1 (m, dm) = ((scanOne l 1 (m, dm)).1, (scanOne l 1 (m, dm)).2) from rfl]
      rw [ih, scanOne_fst_score]
      ring

theorem listContributionFrom_absent (k : Key) (ds : List Document)
    (h : k ∉ ds.map Document.key) : ∀ rank : ℕ, listContributionFrom k rank ds = 0 := by
  induction ds with
  | nil => intro rank; simp [listContributionFrom]
  | cons d ds ih =>
      intro rank
      simp only [List.map_cons, List.mem_cons] at h
      push_neg at h
      simp [listContributionFrom, Ne.symm h.1, ih h.2]

theorem listContributionFrom_unique (k : Key) (d : Document) (post : List Document)
    (hd : d.key = k) (hpost : k ∉ post.map Document.key) :
    ∀ (pre : List Document), k ∉ pre.map Document.key → ∀ (rank : ℕ),
      listContributionFrom k rank (pre ++ d :: post) =
        1 / (60 + ((rank + pre.length : ℕ) : ℚ)) := by
  intro pre
  induction pre with
  | nil =>
      intro _ rank
      simp [listContributionFrom, hd, listContributionFrom_absent k post hpost]
  | cons p ps ih =>
      intro hpre rank
      simp only [List.map_cons, List.mem_cons] at hpre
      push_neg at hpre
      simp only [List.cons_append, listContributionFrom]
      rw [if_neg (fun hc => hpre.1 hc.symm)]
      rw [show ps.append (d :: post) = ps ++ d :: post from rfl, ih hpre.2 (rank + 1)]
      have hlen : rank + 1 + ps.length = rank + (ps.length + 1) := by omega
      simp [List.length_cons, hlen]

/-- The scan updates the score dict and the doc map with the same keys. -/
theorem scanOne_keys_mem (ds : List Document) :
    ∀ (rank : ℕ) (m : List (Key × ℚ)) (dm : List (Key × Document)) (k : Key),
      (memD m k = true → memD dm k = true) →
      (memD (scanOne ds rank (m, dm)).1 k = true →
        memD (scanOne ds rank (m, dm)).2 k = true) := by
  induction ds with
  | nil => intro rank m dm k h; exact h
  | cons d ds ih =>
      intro rank m dm k h
      simp only [scanOne]
      refine ih _ _ _ k ?_
      intro hm
      rw [memD_updD] at hm ⊢
      rcases Bool.or_eq_true_iff.1 hm with h1 | h1
      · simp [h1]
      · simp [h h1]

theorem scanAll_keys_mem (L : List (List Document)) :
    ∀ (m : List (Key × ℚ)) (dm : List (Key × Document)) (k : Key),
      (memD m k = true → memD dm k = true) →
      (memD (scanAll L (m, dm)).1 k = true →
        memD (scanAll L (m, dm)).2 k = true) := by
  induction L with
  | nil => intro m dm k h; exact h
  | cons l ls ih =>
      intro m dm k h
      simp only [scanAll]
      rw [show scanOne l 1 (m, dm) = ((scanOne l 1 (m, dm)).1, (scanOne l 1 (m, dm)).2) from rfl]
      exact ih _ _ k (scanOne_keys_mem l 1 m dm k h)

/-- Every entry of the doc map stores a document whose key is its index. -/
theorem scanOne_dmap_inv (ds : List Document) :
    ∀ (rank : ℕ) (m : List (Key × ℚ)) (dm : List (Key × Document)),
      (∀ p ∈ dm, (Prod.snd p).key = p.1) →
      ∀ p ∈ (scanOne ds rank (m, dm)).2, (Prod.snd p).key = p.1 := by
  induction ds with
  | nil => intro rank m dm h; exact h
  | cons d ds ih =>
      intro rank m dm h
      simp only [scanOne]
      refine ih _ _ _ ?_
      intro p hp
      rcases mem_updD _ _ _ _ hp with h1 | h1
      · exact h p h1
      · subst h1; rfl

theorem scanAll_dmap_inv (L : List (List Document)) :
    ∀ (m : List (Key × ℚ)) (dm : List (Key × Document)),
      (∀ p ∈ dm, (Prod.snd p).key = p.1) →
      ∀ p ∈ (scanAll L (m, dm)).2, (Prod.snd p).key = p.1 := by
  induction L with
  | nil => intro m dm h; exact h
  | cons l ls ih =>
      intro m dm h
      simp only [scanAll]
      rw [show scanOne l 1 (m, dm) = ((scanOne l 1 (m, dm)).1, (scanOne l 1 (m, dm)).2) from rfl]
      exact ih _ _ (scanOne_dmap_inv l 1 m dm h)

/-- The scan preserves distinctness of score-dict keys. -/
theorem scanOne_keys_nodup (ds : List Document) :
    ∀ (rank : ℕ) (m : List (Key × ℚ)) (dm : List (Key × Document)),
      ((m.map Prod.fst).Nodup) →
      (((scanOne ds rank (m, dm)).1.map Prod.fst).Nodup) := by
  induction ds with
  | nil => intro rank m dm h; exact h
  | cons d ds ih =>
      intro rank m dm h
      simp only [scanOne]
      exact ih _ _ _ (updD_keys_nodup _ _ _ h)

theorem scanAll_keys_nodup (L : List (List Document)) :
    ∀ (m : List (Key × ℚ)) (dm : List (Key × Document)),
      ((m.map Prod.fst).Nodup) →
      (((scanAll L (m, dm)).1.map Prod.fst).Nodup) := by
  induction L with
  | nil => intro m dm h; exact h
  | cons l ls ih =>
      intro m dm h
      simp only [scanAll]
      rw [show scanOne l 1 (m, dm) = ((scanOne l 1 (m, dm)).1, (scanOne l 1 (m, dm)).2) from rfl]
      exact ih _ _ (scanOne_keys_nodup l 1 m dm h)

/-! ### Helper lemmas: the stable descending sort -/

theorem insertScored_perm (x : Key × ℚ) (l : List (Key × ℚ)) :
    (insertScored x l).Perm (x :: l) := by
  induction l with
  | nil => simp [insertScored]
  | cons y ys ih =>
      by_cases h : x.2 ≥ y.2
      · simp [insertScored, h]
      · simp only [insertScored, if_neg h]
        exact (ih.cons y).trans (List.Perm.swap x y ys)

theorem sortScoredDesc_perm (l : List (Key × ℚ)) : (sortScoredDesc l).Perm l := by
  induction l with
  | nil => simp [sortScoredDesc]
  | cons x xs ih =>
      exact (insertScored_perm x (sortScoredDesc xs)).trans (ih.cons x)

/-- A list whose scores are already weakly descending is a fixed point of the
stable sort. -/
theorem sortScoredDesc_of_sorted (l : List (Key × ℚ))
    (h : l.Chain' (fun a b => a.2 ≥ b.2)) : sortScoredDesc l = l := by
  induction l with
  | nil => rfl
  | cons x xs ih =>
      have hx := List.Chain'.tail h
      simp only [sortScoredDesc, ih hx]
      cases xs with
      | nil => rfl
      | cons y ys =>
          have hxy : x.2 ≥ y.2 := (List.chain'_cons.1 h).1
          simp [insertScored, hxy]

theorem memD_of_mem {β : Type} (m : List (Key × β)) (p : Key × β) (h : p ∈ m) :
    memD m p.1 = true := by
  induction m with
  | nil => simp at h
  | cons q rest ih =>
      rw [List.mem_cons] at h
      rcases h with h | h
      · subst h; simp [memD]
      · simp [memD, ih h]

/-- The fused output never repeats a document identity key. -/
theorem rearrangePure_keys_nodup (L : List (List Document)) (top_k : ℕ) :
    ((rearrangePure L top_k).map Document.key).Nodup := by
  have hkeys : (((scanAll L ([], [])).1.map Prod.fst)).Nodup :=
    scanAll_keys_nodup L [] [] (by simp)
  have hperm : ((sortScoredDesc (scanAll L ([], [])).1).map Prod.fst).Perm
      ((scanAll L ([], [])).1.map Prod.fst) :=
    (sortScoredDesc_perm (scanAll L ([], [])).1).map Prod.fst
  have hsortnd : ((sortScoredDesc (scanAll L ([], [])).1).map Prod.fst).Nodup :=
    (List.Perm.nodup_iff hperm).2 hkeys
  have hmem : ∀ p ∈ sortScoredDesc (scanAll L ([], [])).1,
      (lookupDoc (scanAll L ([], [])).2 p.1).key = p.1 := by
    intro p hp
    have hp1 : p ∈ (scanAll L ([], [])).1 := (sortScoredDesc_perm _).subset hp
    have hm1 : memD (scanAll L ([], [])).1 p.1 = true := memD_of_mem _ _ hp1
    have hm2 : memD (scanAll L ([], [])).2 p.1 = true :=
      scanAll_keys_mem L [] [] p.1 (fun hx => hx) hm1
    have hentry := getD_mem (scanAll L ([], [])).2 p.1 ⟨"", []⟩ hm2
    exact scanAll_dmap_inv L [] [] (by simp) _ hentry
  have hmap : ((sortScoredDesc (scanAll L ([], [])).1).map
      (fun p => lookupDoc (scanAll L ([], [])).2 p.1)).map Document.key =
      (sortScoredDesc (scanAll L ([], [])).1).map Prod.fst := by
    rw [List.map_map]
    exact List.map_congr_left hmem
  have hnd : (((sortScoredDesc (scanAll L ([], [])).1).map
      (fun p => lookupDoc (scanAll L ([], [])).2 p.1)).map Document.key).Nodup := by
    rw [hmap]; exact hsortnd
  unfold rearrangePure
  by_cases h : top_k = 0
  · simpa [h] using hnd
  · simp only [h, if_false]
    rw [← List.map_take]
    exact hnd.sublist (((List.take_sublist _ _).map _).map _)

/-! ### Helper lemmas: fusing a single duplicate-free list -/

/-- The scores a fresh scan assigns to a duplicate-free list, ranks counted
from `rank`. -/
def scoredFrom (rank : ℕ) : List Document → List (Key × ℚ)
  | [] => []
  | d :: ds => (d.key, 1 / (60 + (rank : ℚ))) :: scoredFrom (rank + 1) ds

theorem memD_append_single {β : Type} (m : List (Key × β)) (k k' : Key) (v : β) :
    memD (m ++ [(k', v)]) k = (memD m k || decide (k' = k)) := by
  induction m with
  | nil => simp [memD]
  | cons p rest ih =>
      obtain ⟨k₀, v₀⟩ := p
      simp [memD, ih, Bool.or_assoc]

theorem scanOne_scores_fresh (l : List Document) :
    ∀ (rank : ℕ) (m : List (Key × ℚ)) (dm : List (Key × Document)),
      ((l.map Document.key).Nodup) →
      (∀ k ∈ l.map Document.key, memD m k = false) →
      (scanOne l rank (m, dm)).1 = m ++ scoredFrom rank l := by
  induction l with
  | nil => intro rank m dm _ _; simp [scanOne, scoredFrom]
  | cons d ds ih =>
      intro rank m dm hnd hfresh
      have hdm : memD m d.key = false := hfresh d.key (by simp)
      simp only [scanOne]
      rw [getD_not_mem m d.key 0 hdm, updD_not_mem m d.key _ hdm]
      simp only [List.map_cons, List.nodup_cons] at hnd
      have hfresh2 : ∀ k ∈ ds.map Document.key, memD (m ++ [(d.key, 0 + 1 / (60 + (rank : ℚ)))]) k = false := by
        intro k hk
        rw [memD_append_single]
        have h1 : memD m k = false := hfresh k (by simp [hk])
        have h2 : d.key ≠ k := fun hc => hnd.1 (hc ▸ hk)
        simp [h1, h2]
      rw [ih (rank + 1) _ _ hnd.2 hfresh2]
      simp [scoredFrom, List.append_assoc]

theorem scanOne_dmap_untouched (ds : List Document) :
    ∀ (rank : ℕ) (m : List (Key × ℚ)) (dm : List (Key × Document)) (k : Key) (x : Document),
      k ∉ ds.map Document.key →
      getD (scanOne ds rank (m, dm)).2 k x = getD dm k x := by
  induction ds with
  | nil => intro rank m dm k x _; rfl
  | cons d ds ih =>
      intro rank m dm k x hk
      simp only [List.map_cons, List.mem_cons] at hk
      push_neg at hk
      simp only [scanOne]
      rw [ih _ _ _ _ _ hk.2, getD_updD_ne _ _ _ _ _ (fun hc => hk.1 hc.symm)]

theorem scanOne_dmap_fresh (l : List Document) :
    ∀ (rank : ℕ) (m : List (Key × ℚ)) (dm : List (Key × Document)),
      ((l.map Document.key).Nodup) →
      ∀ d ∈ l, ∀ x, getD (scanOne l rank (m, dm)).2 d.key x = d := by
  induction l with
  | nil => intro rank m dm _ d hd; simp at hd
  | cons d0 ds ih =>
      intro rank m dm hnd d hd x
      simp only [List.map_cons, List.nodup_cons] at hnd
      rw [List.mem_cons] at hd
      rcases hd with hd | hd
      · subst hd
        simp only [scanOne]
        rw [scanOne_dmap_untouched ds _ _ _ _ _ hnd.1, getD_updD_self]
      · simp only [scanOne]
        exact ih _ _ _ hnd.2 d hd x

theorem scoredFrom_keys (l : List Document) :
    ∀ rank : ℕ, (scoredFrom rank l).map Prod.fst = l.map Document.key := by
  induction l with
  | nil => intro rank; rfl
  | cons d ds ih => intro rank; simp [scoredFrom, ih]

theorem scoredFrom_chain (l : List Document) :
    ∀ rank : ℕ, (scoredFrom rank l).Chain' (fun a b => a.2 ≥ b.2) := by
  induction l with
  | nil => intro rank; simp [scoredFrom]
  | cons d ds ih =>
      intro rank
      cases ds with
      | nil => simp [scoredFrom]
      | cons e es =>
          rw [show scoredFrom rank (d :: e :: es) =
            (d.key, 1 / (60 + (rank : ℚ))) :: scoredFrom (rank + 1) (e :: es) from rfl]
          rw [show scoredFrom (rank + 1) (e :: es) =
            (e.key, 1 / (60 + ((rank + 1 : ℕ) : ℚ))) :: scoredFrom (rank + 2) es from rfl]
          refine List.Chain'.cons ?_ ?_
          · have h1 : (0 : ℚ) < 60 + (rank : ℚ) := by positivity
            have h2 : (60 : ℚ) + (rank : ℚ) ≤ 60 + ((rank + 1 : ℕ) : ℚ) := by
              push_cast; linarith
            exact one_div_le_one_div_of_le h1 h2
          · rw [show (e.key, 1 / (60 + ((rank + 1 : ℕ) : ℚ))) :: scoredFrom (rank + 2) es =
              scoredFrom (rank + 1) (e :: es) from rfl]
            exact ih (rank + 1)

/-- C8 (amended): fusing the one-element collection consisting of a single
RankedList `l` with `top_k` zero returns the documents of `l` preserving
their original relative order exactly, provided no document identity key
occurs twice in `l`. -/
theorem rrf_single_list_preserves_order (l : List Document)
    (hnd : (l.map Document.key).Nodup) : rearrangePure [l] 0 = l := by
  have hscan : (scanAll [l] ([], [])).1 = scoredFrom 1 l := by
    show (scanOne l 1 ([], [])).1 = scoredFrom 1 l
    rw [scanOne_scores_fresh l 1 [] [] hnd (by intro k _; rfl)]
    rfl
  have hsort : sortScoredDesc (scanAll [l] ([], [])).1 = scoredFrom 1 l := by
    rw [hscan]
    exact sortScoredDesc_of_sorted _ (scoredFrom_chain l 1)
  unfold rearrangePure
  simp only [hsort, if_pos rfl]
  have hkeys := scoredFrom_keys l 1
  have hmap : (scoredFrom 1 l).map (fun p => lookupDoc (scanAll [l] ([], [])).2 p.1) =
      (l.map Document.key).map (fun k => lookupDoc (scanAll [l] ([], [])).2 k) := by
    rw [← hkeys, List.map_map]
    rfl
  rw [hmap, List.map_map]
  have : ∀ d ∈ l, lookupDoc (scanAll [l] ([], [])).2 d.key = d := by
    intro d hd
    show getD (scanOne l 1 ([], [])).2 d.key ⟨"", []⟩ = d
    exact scanOne_dmap_fresh l 1 [] [] hnd d hd _
  calc l.map (fun d => lookupDoc (scanAll [l] ([], [])).2 d.key)
      = l.map id := List.map_congr_left this
    _ = l := List.map_id l

/-! ### Helper lemmas: the multi-hop loop -/

theorem run_length_le (oracle : ℕ → HopResp) :
    ∀ (fuel i : ℕ) (s : MultiHopRetriever),
      (s.run oracle i fuel).subqueries.length ≤ s.subqueries.length + fuel := by
  intro fuel
  induction fuel with
  | zero => intro i s; simp [MultiHopRetriever.run]
  | succ n ih =>
      intro i s
      simp only [MultiHopRetriever.run]
      by_cases h : (oracle i).end_of_generation
      · simp [h]
      · simp only [h, if_false]
        calc _ ≤ (s.subqueries ++ [(oracle i).subquery]).length + n := ih (i + 1) _
          _ ≤ s.subqueries.length + (n + 1) := by simp; omega

theorem run_length_never_eog (oracle : ℕ → HopResp)
    (h : ∀ j, (oracle j).end_of_generation = false) :
    ∀ (fuel i : ℕ) (s : MultiHopRetriever),
      (s.run oracle i fuel).subqueries.length = s.subqueries.length + fuel
      ∧ (s.run oracle i fuel).retrieved_respective_documents.length =
          s.retrieved_respective_documents.length + fuel := by
  intro fuel
  induction fuel with
  | zero => intro i s; simp [MultiHopRetriever.run]
  | succ n ih =>
      intro i s
      simp only [MultiHopRetriever.run, h i, if_false, Bool.false_eq_true]
      refine ⟨((ih (i + 1) _).1).trans (by simp; omega),
              ((ih (i + 1) _).2).trans (by simp; omega)⟩

theorem run_extends (oracle : ℕ → HopResp) :
    ∀ (fuel i : ℕ) (s : MultiHopRetriever),
      ∃ (e : List String) (f : List (List Document)),
        (s.run oracle i fuel).subqueries = s.subqueries ++ e
        ∧ (s.run oracle i fuel).retrieved_respective_documents =
            s.retrieved_respective_documents ++ f
        ∧ (s.run oracle i fuel).bm25_retriever = s.bm25_retriever
        ∧ (s.run oracle i fuel).semantic_retriever = s.semantic_retriever := by
  intro fuel
  induction fuel with
  | zero => intro i s; exact ⟨[], [], by simp [MultiHopRetriever.run], by simp [MultiHopRetriever.run], rfl, rfl⟩
  | succ n ih =>
      intro i s
      simp only [MultiHopRetriever.run]
      by_cases h : (oracle i).end_of_generation
      · exact ⟨[], [], by simp [h], by simp [h], by simp [h], by simp [h]⟩
      · simp only [h, if_false, Bool.false_eq_true]
        obtain ⟨e, f, h1, h2, h3, h4⟩ := ih (i + 1)
          { s with subqueries := s.subqueries ++ [(oracle i).subquery],
                   retrieved_respective_documents :=
                     s.retrieved_respective_documents ++
                       [rearrangePure [s.bm25_retriever (oracle i).subquery,
                                       s.semantic_retriever (oracle i).subquery] 7] }
        exact ⟨(oracle i).subquery :: e,
          rearrangePure [s.bm25_retriever (oracle i).subquery,
                         s.semantic_retriever (oracle i).subquery] 7 :: f,
          by rw [h1]; simp, by rw [h2]; simp, h3, h4⟩

/-! ### Concrete documents for the recorded test scenario -/

def docOne : Document := ⟨"this is document one", []⟩
def docTwo : Document := ⟨"this is document two", []⟩
def docThree : Document := ⟨"this is document three", []⟩
def docFour : Document := ⟨"this is document four", []⟩
def docFive : Document := ⟨"this is document five", []⟩

/-- The `query_one` ranked list of the module test in rrf_score.py. -/
def listA : List Document := [docFive, docFour, docThree, docTwo]

/-- The `query_two` ranked list. -/
def listB : List Document := [docOne, docThree, docTwo, docFour]

/-- The `query_three` ranked list. -/
def listC : List Document := [docFour, docTwo, docOne, docThree]

/-! ### Claim theorems -/

/-- C1: refuted on the code.  The conversation-loop dispatch of app.py
compares the tier against the string "multi-hop", which is not among the
values enumerated by `QueryComplexitySchema.complexity`; the schema value
"multi_hop" therefore falls into the no-retrieval out-of-scope branch, and no
tier the router schema can emit ever reaches the multi-hop branch. -/
theorem tier_dispatch_misses_multi_hop :
    dispatchTier "multi_hop" = Branch.outOfScope
    ∧ dispatchTier "complex" = Branch.multiquery
    ∧ dispatchTier "simple_conversation" = Branch.outOfScope
    ∧ "multi_hop" ∈ schemaTiers
    ∧ (dispatchTier "simple_conversation" ≠ Branch.multihop
       ∧ dispatchTier "complex" ≠ Branch.multihop
       ∧ dispatchTier "multi_hop" ≠ Branch.multihop) := by
  decide

/-- C7: refuted on the code.  When the parsed oracle response omits the
tier value, `QueryComplexity.invoke` does not return the declared schema
default `simple_conversation`: the JSON output chain yields a plain dict and
the subscript `resp["complexity"]` raises `KeyError`.  The call succeeds
exactly when the key is present, and an unparseable response surfaces the
own parse failure of the chain, not a dedicated classification error. -/
theorem router_keyerror_on_omitted_tier :
    QueryComplexity.invoke (.ok []) = .error RouterError.keyError
    ∧ QueryComplexity.invoke (.ok [("other", "x")]) = .error RouterError.keyError
    ∧ QueryComplexity.invoke (.ok []) ≠ .ok "simple_conversation"
    ∧ QueryComplexity.invoke (.ok [("complexity", "multi_hop")]) = .ok "multi_hop"
    ∧ QueryComplexity.invoke (.error "unparseable") =
        .error (RouterError.outputParseFailure "unparseable") := by
  refine ⟨rfl, rfl, ?_, rfl, rfl⟩
  intro h
  exact Except.noConfusion h

/-- C5: the recorded three-list scenario of rrf_score.py.  Fusing lists A, B
and C with `top_k = 3` returns exactly `[four, three, two]`, the accumulated
scores are the stated sums of reciprocals, and each of the three strictly
exceeds the accumulated contributions of documents `one` and `five`. -/
theorem rrf_concrete_scenario :
    rearrangePure [listA, listB, listC] 3 = [docFour, docThree, docTwo]
    ∧ scoreOf (scanAll [listA, listB, listC] ([], [])).1 docFour.key =
        1 / 62 + 1 / 64 + 1 / 61
    ∧ scoreOf (scanAll [listA, listB, listC] ([], [])).1 docThree.key =
        1 / 63 + 1 / 62 + 1 / 64
    ∧ scoreOf (scanAll [listA, listB, listC] ([], [])).1 docTwo.key =
        1 / 64 + 1 / 63 + 1 / 62
    ∧ (scoreOf (scanAll [listA, listB, listC] ([], [])).1 docFour.key >
         scoreOf (scanAll [listA, listB, listC] ([], [])).1 docOne.key
       ∧ scoreOf (scanAll [listA, listB, listC] ([], [])).1 docFour.key >
         scoreOf (scanAll [listA, listB, listC] ([], [])).1 docFive.key
       ∧ scoreOf (scanAll [listA, listB, listC] ([], [])).1 docThree.key >
         scoreOf (scanAll [listA, listB, listC] ([], [])).1 docOne.key
       ∧ scoreOf (scanAll [listA, listB, listC] ([], [])).1 docThree.key >
         scoreOf (scanAll [listA, listB, listC] ([], [])).1 docFive.key
       ∧ scoreOf (scanAll [listA, listB, listC] ([], [])).1 docTwo.key >
         scoreOf (scanAll [listA, listB, listC] ([], [])).1 docOne.key
       ∧ scoreOf (scanAll [listA, listB, listC] ([], [])).1 docTwo.key >
         scoreOf (scanAll [listA, listB, listC] ([], [])).1 docFive.key) := by
  norm_num +decide [rearrangePure, scoreOf, scanAll, scanOne, updD, getD, listA, listB,
    listC, sortScoredDesc, insertScored, lookupDoc, docOne, docTwo, docThree, docFour,
    docFive, Document.key]

/-- C8: counterexample.  A single ranked list that repeats a document is not
returned unchanged: the duplicated document accumulates two reciprocal-rank
contributions, overtakes the first-ranked document, and is emitted once. -/
theorem rrf_single_list_order_cex :
    rearrangePure [[Document.mk "a" [], Document.mk "b" [], Document.mk "b" []]] 0 ≠
      [Document.mk "a" [], Document.mk "b" [], Document.mk "b" []]
    ∧ rearrangePure [[Document.mk "a" [], Document.mk "b" [], Document.mk "b" []]] 0 =
      [Document.mk "b" [], Document.mk "a" []] := by
  norm_num +decide [rearrangePure, scoreOf, scanAll, scanOne, updD, getD,
    sortScoredDesc, insertScored, lookupDoc, Document.key]

/-- C8 witness: the amended single-list preservation applied to a concrete
duplicate-free list. -/
theorem rrf_single_list_preserves_order_witness :
    rearrangePure [[Document.mk "a" [], Document.mk "b" []]] 0 =
      [Document.mk "a" [], Document.mk "b" []] :=
  rrf_single_list_preserves_order [Document.mk "a" [], Document.mk "b" []] (by decide)

/-- C3: the fused score accumulated for a document identity key equals the
sum over the ranked lists of its per-list contributions; a list not
containing the key contributes zero; a list containing it exactly once at
1-based rank `pre.length + 1` contributes the reciprocal of sixty plus that
rank; and each distinct key appears at most once in the fused output. -/
theorem rrf_score_accumulation (L : List (List Document)) (k : Key) :
    scoreOf (scanAll L ([], [])).1 k = (L.map (listContributionFrom k 1)).sum
    ∧ (∀ l, k ∉ l.map Document.key → listContributionFrom k 1 l = 0)
    ∧ (∀ (pre : List Document) (d : Document) (post : List Document),
        d.key = k → k ∉ pre.map Document.key → k ∉ post.map Document.key →
        listContributionFrom k 1 (pre ++ d :: post) =
          1 / (60 + ((pre.length + 1 : ℕ) : ℚ)))
    ∧ ∀ top_k : ℕ, ((rearrangePure L top_k).map Document.key).Nodup := by
  refine ⟨?_, ?_, ?_, ?_⟩
  · have h := scanAll_score L k [] []
    simpa [scoreOf, getD] using h
  · intro l hl
    exact listContributionFrom_absent k l hl 1
  · intro pre d post h1 h2 h3
    have h := listContributionFrom_unique k d post h1 h3 pre h2 1
    rw [h, Nat.add_comm 1 pre.length]
  · intro tk
    exact rearrangePure_keys_nodup L tk

/-- C3 witness: the accumulation applied to a concrete pair of lists. -/
theorem rrf_score_accumulation_witness :
    scoreOf (scanAll [[Document.mk "a" [], Document.mk "b" []], [Document.mk "b" []]]
        ([], [])).1 (Document.mk "b" []).key =
      ([[Document.mk "a" [], Document.mk "b" []], [Document.mk "b" []]].map
        (listContributionFrom (Document.mk "b" []).key 1)).sum
    ∧ listContributionFrom (Document.mk "b" []).key 1 [Document.mk "a" []] = 0 := by
  have h := rrf_score_accumulation
    [[Document.mk "a" [], Document.mk "b" []], [Document.mk "b" []]]
    (Document.mk "b" []).key
  exact ⟨h.1, h.2.1 [Document.mk "a" []] (by decide)⟩

/-- C2: counterexample.  With a single paraphrase and each retriever
returning one document, `MultiQueryRetriever.invoke` collects ONE combined
ranked list (the lexical and dense results concatenated), not two distinct
ranked lists: fusion then sees the top dense-retriever document at rank 2
(scoring 1/62), not at rank 1 within the result list of its own retriever (1/61). -/
theorem multiquery_fusion_lists_cex :
    ((MultiQueryRetriever.mk (fun _ => [Document.mk "a" []]) (fun _ => [Document.mk "b" []])
        3 [] []).invoke (MQResp.dict (some ["p"]))).2.all_documents =
      [[Document.mk "a" [], Document.mk "b" []]]
    ∧ ((MultiQueryRetriever.mk (fun _ => [Document.mk "a" []]) (fun _ => [Document.mk "b" []])
        3 [] []).invoke (MQResp.dict (some ["p"]))).2.all_documents.length ≠
      2 * (parseGenerated (MQResp.dict (some ["p"]))).length
    ∧ scoreOf (scanAll ((MultiQueryRetriever.mk (fun _ => [Document.mk "a" []])
        (fun _ => [Document.mk "b" []]) 3 [] []).invoke
          (MQResp.dict (some ["p"]))).2.all_documents ([], [])).1
        (Document.mk "b" []).key = 1 / 62
    ∧ (1 : ℚ) / 62 ≠ 1 / 61 := by
  refine ⟨rfl, by decide, ?_, by norm_num⟩
  norm_num +decide [MultiQueryRetriever.invoke, MultiQueryRetriever.translate_queries,
    MultiQueryRetriever.retrieve, parseGenerated, scoreOf, scanAll, scanOne, updD, getD,
    Document.key]

/-- C2 (amended): for every generated paraphrase both retrievers are invoked
and their results are concatenated (lexical first) into a single combined
ranked list; fusion therefore operates over P ranked lists for P paraphrases
with the requested `top_k`, and the rank of a document in RRF scoring is its
1-based position within the combined per-paraphrase list. -/
theorem multiquery_fusion_over_concatenated_lists (bm25 sem : String → List Document)
    (tk : ℕ) (resp : MQResp) :
    ((MultiQueryRetriever.mk bm25 sem tk [] []).invoke resp).2.all_documents =
        (parseGenerated resp).map (fun q => bm25 q ++ sem q)
    ∧ ((MultiQueryRetriever.mk bm25 sem tk [] []).invoke resp).2.all_documents.length =
        (parseGenerated resp).length
    ∧ ((MultiQueryRetriever.mk bm25 sem tk [] []).invoke resp).1 =
        rearrangePure ((parseGenerated resp).map (fun q => bm25 q ++ sem q)) tk
    ∧ ∀ k : Key,
        scoreOf (scanAll ((parseGenerated resp).map (fun q => bm25 q ++ sem q)) ([], [])).1 k =
          ((parseGenerated resp).map
            (fun q => listContributionFrom k 1 (bm25 q ++ sem q))).sum := by
  refine ⟨rfl, by simp [MultiQueryRetriever.invoke, MultiQueryRetriever.translate_queries,
    MultiQueryRetriever.retrieve], rfl, ?_⟩
  intro k
  have h := scanAll_score ((parseGenerated resp).map fun q => bm25 q ++ sem q) k [] []
  simpa [scoreOf, getD, List.map_map, Function.comp] using h

/-- C4: with the oracle never signalling end of generation, the multi-hop
loop performs exactly `n` hops, appending one subquery record per hop, and
for every oracle behaviour the iteration budget is an unconditional upper
bound on the number of hops. -/
theorem multi_hop_iteration_cap (bm25 sem : String → List Document)
    (oracle : ℕ → HopResp) (n : ℕ)
    (h : ∀ i, (oracle i).end_of_generation = false) :
    ((MultiHopRetriever.mk bm25 sem [] []).invoke oracle n).2.subqueries.length = n
    ∧ ((MultiHopRetriever.mk bm25 sem [] []).invoke oracle
        n).2.retrieved_respective_documents.length = n
    ∧ ∀ o : ℕ → HopResp,
        ((MultiHopRetriever.mk bm25 sem [] []).invoke o n).2.subqueries.length ≤ n := by
  refine ⟨?_, ?_, ?_⟩
  · have h1 := (run_length_never_eog oracle h n 0 (MultiHopRetriever.mk bm25 sem [] [])).1
    simpa [MultiHopRetriever.invoke] using h1
  · have h1 := (run_length_never_eog oracle h n 0 (MultiHopRetriever.mk bm25 sem [] [])).2
    simpa [MultiHopRetriever.invoke] using h1
  · intro o
    have h1 := run_length_le o n 0 (MultiHopRetriever.mk bm25 sem [] [])
    simpa [MultiHopRetriever.invoke] using h1

/-- C4 witness: a scripted oracle that never stops, with budget three. -/
theorem multi_hop_iteration_cap_witness :
    ((MultiHopRetriever.mk (fun _ => []) (fun _ => []) [] []).invoke
        (fun _ => HopResp.mk false "q") 3).2.subqueries.length = 3 :=
  (multi_hop_iteration_cap (fun _ => []) (fun _ => [])
    (fun _ => HopResp.mk false "q") 3 (fun _ => rfl)).1

/-- C9: fusion is single-use per accumulator instance.  Any successful
`RRF.rearrange` call replaces the `rrf_scores` dict with a sorted pair list,
so a second `rearrange` on the returned instance always raises instead of
returning a ranking. -/
theorem rrf_rearrange_single_use (s : RRF) (top_k1 top_k2 : ℕ)
    (out : List Document) (s2 : RRF)
    (h : RRF.rearrange s top_k1 = Except.ok (out, s2)) :
    RRF.rearrange s2 top_k2 =
      Except.error "AttributeError: list object has no attribute get or items" := by
  obtain ⟨docs, sf⟩ := s
  cases sf with
  | list l => exact absurd h (by simp [RRF.rearrange])
  | dict m =>
      have h2 := Except.ok.inj h
      have hs2 := congrArg Prod.snd h2
      dsimp only at hs2
      rw [← hs2]
      rfl

/-- C9 witness: a concrete first call succeeds, the second raises. -/
theorem rrf_rearrange_single_use_witness :
    RRF.rearrange (RRF.mk [] (ScoresField.list [])) 0 =
      Except.error "AttributeError: list object has no attribute get or items" :=
  rrf_rearrange_single_use (RRF.init []) 0 0 [] (RRF.mk [] (ScoresField.list [])) rfl

/-- C10: neither retriever resets its per-instance accumulators.  A second
`MultiQueryRetriever.invoke` extends `sub_queries` and `all_documents` with
the data of both calls and fuses the whole accumulated collection; a second
`MultiHopRetriever.invoke` extends `subqueries` and
`retrieved_respective_documents` and renders its output from the combined
records of both calls. -/
theorem retriever_state_accumulates
    (s : MultiQueryRetriever) (r1 r2 : MQResp)
    (t : MultiHopRetriever) (o1 o2 : ℕ → HopResp) (n1 n2 : ℕ) :
    (((s.invoke r1).2.invoke r2).2.sub_queries =
        (s.sub_queries ++ parseGenerated r1) ++ parseGenerated r2)
    ∧ (((s.invoke r1).2.invoke r2).2.all_documents =
        (s.invoke r1).2.all_documents ++
          ((s.invoke r1).2.sub_queries ++ parseGenerated r2).map
            (fun q => s.bm25_retriever q ++ s.semantic_retriever q))
    ∧ (((s.invoke r1).2.invoke r2).1 =
        rearrangePure (((s.invoke r1).2.invoke r2).2.all_documents) s.top_k)
    ∧ ∃ (e1 e2 : List String) (f1 f2 : List (List Document)),
        (t.invoke o1 n1).2.subqueries = t.subqueries ++ e1
        ∧ (t.invoke o1 n1).2.retrieved_respective_documents =
            t.retrieved_respective_documents ++ f1
        ∧ ((t.invoke o1 n1).2.invoke o2 n2).2.subqueries = (t.subqueries ++ e1) ++ e2
        ∧ ((t.invoke o1 n1).2.invoke o2 n2).2.retrieved_respective_documents =
            (t.retrieved_respective_documents ++ f1) ++ f2
        ∧ ((t.invoke o1 n1).2.invoke o2 n2).1 =
            MultiHopRetriever.generate_subquery_content
              ((t.invoke o1 n1).2.invoke o2 n2).2 := by
  refine ⟨rfl, rfl, rfl, ?_⟩
  obtain ⟨e1, f1, h1, h2, _, _⟩ := run_extends o1 n1 0 t
  obtain ⟨e2, f2, g1, g2, _, _⟩ := run_extends o2 n2 0 (t.run o1 0 n1)
  refine ⟨e1, e2, f1, f2, h1, h2, ?_, ?_, rfl⟩
  · show ((t.run o1 0 n1).run o2 0 n2).subqueries = (t.subqueries ++ e1) ++ e2
    rw [g1, h1]
  · show ((t.run o1 0 n1).run o2 0 n2).retrieved_respective_documents =
      (t.retrieved_respective_documents ++ f1) ++ f2
    rw [g2, h2]

/-- C6: the method `append` invokes the summarization oracle exactly when the
post-append turn count exceeds the window (from the `(window+1)`-th turn
onward, never before), and the new cached summary is computed solely from
the prior cached summary together with the pretty-printed windowed view:
two memories agreeing on summarizer, cached summary and post-append windowed
view produce the same new cache no matter how their older turns differ. -/
theorem memory_summarization_trigger (m : ConversationSummaryMemory) (t : Turn)
    (k : ℕ) (hw : m.window = k * 2) :
    ((m.append t).oracle_calls = m.oracle_calls + 1 ↔
        m.conversations.length + 1 > m.window)
    ∧ ((m.append t).oracle_calls = m.oracle_calls ↔
        m.conversations.length + 1 ≤ m.window)
    ∧ (m.conversations.length + 1 > m.window →
        (m.append t).summary_cache =
          m.summarizer (summaryInput m.summary_cache
            (windowedOf (m.conversations ++ [t]) m.window)))
    ∧ (m.conversations.length + 1 ≤ m.window →
        (m.append t).summary_cache = m.summary_cache)
    ∧ (∀ (m2 : ConversationSummaryMemory) (t2 : Turn),
        m2.summarizer = m.summarizer → m2.summary_cache = m.summary_cache →
        windowedOf (m2.conversations ++ [t2]) m2.window =
          windowedOf (m.conversations ++ [t]) m.window →
        m2.conversations.length + 1 > m2.window →
        m.conversations.length + 1 > m.window →
        (m2.append t2).summary_cache = (m.append t).summary_cache) := by
  by_cases hc : m.conversations.length + 1 > m.window
  · have hcond : (m.conversations ++ [t]).length > m.window := by simpa using hc
    have happ : m.append t = ConversationSummaryMemory.mk m.summarizer m.window
        (m.conversations ++ [t])
        (m.summarizer (summaryInput m.summary_cache
          (windowedOf (m.conversations ++ [t]) m.window)))
        (m.oracle_calls + 1) := by
      simp only [ConversationSummaryMemory.append, if_pos hcond]
    refine ⟨?_, ?_, ?_, ?_, ?_⟩
    · rw [happ]
      exact iff_of_true rfl hc
    · rw [happ]
      constructor
      · intro hx
        have hx2 : m.oracle_calls + 1 = m.oracle_calls := hx
        omega
      · intro hx
        exact absurd hx (by omega)
    · intro _
      rw [happ]
    · intro hx
      exact absurd hx (by omega)
    · intro m2 t2 hs hsc hwv hc2 _
      have hcond2 : (m2.conversations ++ [t2]).length > m2.window := by simpa using hc2
      have happ2 : m2.append t2 = ConversationSummaryMemory.mk m2.summarizer m2.window
          (m2.conversations ++ [t2])
          (m2.summarizer (summaryInput m2.summary_cache
            (windowedOf (m2.conversations ++ [t2]) m2.window)))
          (m2.oracle_calls + 1) := by
        simp only [ConversationSummaryMemory.append, if_pos hcond2]
      rw [happ, happ2, hs, hsc, hwv]
  · have hcond : ¬ (m.conversations ++ [t]).length > m.window := by simpa using hc
    have happ : m.append t = ConversationSummaryMemory.mk m.summarizer m.window
        (m.conversations ++ [t]) m.summary_cache m.oracle_calls := by
      simp only [ConversationSummaryMemory.append, if_neg hcond]
    refine ⟨?_, ?_, ?_, ?_, ?_⟩
    · rw [happ]
      constructor
      · intro hx
        have hx2 : m.oracle_calls = m.oracle_calls + 1 := hx
        omega
      · intro hx
        exact absurd hx hc
    · rw [happ]
      exact iff_of_true rfl (by omega)
    · intro hx
      exact absurd hx hc
    · intro _
      rw [happ]
    · intro m2 t2 _ _ _ _ hc1
      exact absurd hc1 hc

/-- C6 witness: a window-two memory holding two turns; the third append
triggers exactly one oracle call. -/
theorem memory_summarization_trigger_witness :
    ((ConversationSummaryMemory.mk (fun s => s) 2
        [Turn.mk "human" "a", Turn.mk "ai" "b"] "" 0).append
      (Turn.mk "human" "c")).oracle_calls = 0 + 1 := by
  have h := memory_summarization_trigger
    (ConversationSummaryMemory.mk (fun s => s) 2
      [Turn.mk "human" "a", Turn.mk "ai" "b"] "" 0)
    (Turn.mk "human" "c") 1 rfl
  exact h.1.mpr (by decide)

end RAG
